import Mathlib

/-!
Shallow embedding of the aiq event-queue server core, translated from the
C++ sources: `Topic.cpp` (persistent topic log with recovery),
`BinaryUtils.h/.cpp` (binary codec), `EventQueue.cpp` (produce/consume
facade) and `SubscriptionManager.cpp` (fan-out registry).

Files are modelled as byte lists (`List Nat`, little-endian host order, as
`write_binary` does on the repository's hosts); `std::map` values are
modelled as association lists observed only through key-based operations
(find, max key, lower bound), which are order-independent, matching the
keyed semantics of the container.
-/

namespace Aiq

/-- Width of a u64 modulus, `2 ^ 64`. -/
def U64 : Nat := 18446744073709551616

/-- Width of a u32 modulus, `2 ^ 32`. -/
def U32 : Nat := 4294967296

/-- `read_string` / the recovery scan reject payload lengths above
`1024 * 1024 * 100` bytes (`BinaryUtils.cpp`, `Topic.cpp`). -/
def MAXLEN : Nat := 104857600

/-! ## Binary codec (`BinaryUtils`) -/

/-- Little-endian byte encoding of `v` on `w` bytes, as
`BinaryUtils::write_binary` lays out an unsigned integer in host order. -/
def toBytesLE : Nat → Nat → List Nat
  | 0, _ => []
  | w + 1, v => v % 256 :: toBytesLE w (v / 256)

/-- Value of a little-endian byte list, as `BinaryUtils::read_binary`
reassembles it. -/
def fromBytesLE : List Nat → Nat
  | [] => 0
  | b :: bs => b + 256 * fromBytesLE bs

/-- `BinaryUtils::read_binary` on a stream: reads `w` bytes at `pos`;
`none` models the exception on a short read. Returns the value and the
new stream position. -/
def readBin (w : Nat) (data : List Nat) (pos : Nat) : Option (Nat × Nat) :=
  if pos + w ≤ data.length then
    some (fromBytesLE ((data.drop pos).take w), pos + w)
  else none

/-- `BinaryUtils::read_string`: u32 length prefix, then that many bytes;
`none` models the exceptions (short read, or length above the 100 MiB
sanity bound). -/
def readStr (data : List Nat) (pos : Nat) : Option (List Nat × Nat) :=
  match readBin 4 data pos with
  | none => none
  | some (len, p1) =>
    if MAXLEN < len then none
    else if p1 + len ≤ data.length then some ((data.drop p1).take len, p1 + len)
    else none

/-- Bytes appended to `data.log` for one record by `Topic::append_message`:
u64 offset, u32 payload length (`write_string`'s cast truncates to u32),
then the payload bytes. -/
def encRecord (off : Nat) (payload : List Nat) : List Nat :=
  toBytesLE 8 off ++ toBytesLE 4 (payload.length % U32) ++ payload.take (payload.length % U32)

/-! ## Association-list maps (keyed view of `std::map`) -/

/-- `std::map::find` / lookup by key. -/
def alFind? {κ α : Type} [DecidableEq κ] : List (κ × α) → κ → Option α
  | [], _ => none
  | (k, v) :: rest, key => if k = key then some v else alFind? rest key

/-- `std::map::operator[] = v`: replace the entry for `key` in place, or
add one if absent. -/
def alUpsert {κ α : Type} [DecidableEq κ] : List (κ × α) → κ → α → List (κ × α)
  | [], key, v => [(key, v)]
  | (k, w) :: rest, key, v =>
    if k = key then (key, v) :: rest else (k, w) :: alUpsert rest key v

/-- `std::map::erase(key)`: remove the entry for `key` (the first one; on
a well-formed map there is at most one). -/
def alErase {κ α : Type} [DecidableEq κ] : List (κ × α) → κ → List (κ × α)
  | [], _ => []
  | (k, w) :: rest, key => if k = key then rest else (k, w) :: alErase rest key

/-! ## The in-memory index (`std::map<uint64_t, uint64_t> offset_to_byte_pos_`) -/

/-- The type of the in-memory offset → byte-position index. -/
abbrev IndexMap := List (Nat × Nat)

/-- Lookup in the index map (`find` / `count` / `operator[]` read). -/
def mapFind? (m : IndexMap) (k : Nat) : Option Nat :=
  alFind? m k

/-- Keyed store into the index map; drops any stale pair for `k` so the
map never holds two entries for one offset, as a `std::map` cannot. -/
def mapInsert (m : IndexMap) (k v : Nat) : IndexMap :=
  m.filter (fun p => ¬ (p.1 = k)) ++ [(k, v)]

/-- `rbegin()->first` of a non-empty `std::map`: the greatest key
(0 on the empty map, matching the initialisation in `Topic.cpp`). -/
def mapMaxKey (m : IndexMap) : Nat :=
  (m.map Prod.fst).foldr max 0

/-- Entry with the least key, ties going to the earlier entry (unique on
a well-formed map). -/
def minKeyEntry? : List (Nat × Nat) → Option (Nat × Nat)
  | [] => none
  | p :: rest =>
    match minKeyEntry? rest with
    | none => some p
    | some q => if q.1 < p.1 then some q else some p

/-- `std::map::lower_bound(k)`: the entry with the least key `≥ k`. -/
def mapLowerBound? (m : IndexMap) (k : Nat) : Option (Nat × Nat) :=
  minKeyEntry? (m.filter (fun p => k ≤ p.1))

/-! ## Topic log state (`Topic.h` / `Topic.cpp`) -/

/-- The `Message` struct. -/
structure Msg where
  offset : Nat
  topic : String
  payload : List Nat
deriving DecidableEq, Repr

/-- A `Topic`'s state: its three file contents plus the in-memory
`next_offset_` and `offset_to_byte_pos_`. -/
structure TopicState where
  name : String
  dataLog : List Nat
  indexFile : List Nat
  metadata : List Nat
  next_offset : Nat
  index_map : IndexMap
deriving DecidableEq, Repr

/-- `Topic::append_message`: capture `tellp` as the byte position, append
the record to the data log, append the `(offset, byte_position)` pair to
the index file, update the in-memory index, advance `next_offset_`
(a u64 increment) and rewrite metadata. Returns the assigned offset. -/
def append_message (st : TopicState) (payload : List Nat) : TopicState × Nat :=
  let off := st.next_offset
  let bp := st.dataLog.length
  let newNext := (st.next_offset + 1) % U64
  ({ st with
      dataLog := st.dataLog ++ encRecord off payload
      indexFile := st.indexFile ++ toBytesLE 8 off ++ toBytesLE 8 bp
      index_map := mapInsert st.index_map off bp
      next_offset := newNext
      metadata := toBytesLE 8 newNext }, off)

/-- The read loop of `Topic::get_messages`: at most `fuel` more records
(the caller passes `max_messages` minus what is accumulated, which the
C++ loop tracks as `messages.size() < max_messages`). Mirrors, in order:
the `current < next_offset_` test, the EOF peek, the u64 offset read, the
payload read, the offset-match check, and the index-based reseek for the
next offset. -/
def getMsgsGo (st : TopicState) : Nat → Nat → Nat → List Msg → List Msg
  | 0, _, _, acc => acc
  | fuel + 1, current, pos, acc =>
    if current < st.next_offset then
      if pos < st.dataLog.length then
        match readBin 8 st.dataLog pos with
        | none => acc
        | some (fileOff, p1) =>
          match readStr st.dataLog p1 with
          | none => acc
          | some (payload, p2) =>
            if fileOff = current then
              let acc' := acc ++ [⟨current, st.name, payload⟩]
              let current' := current + 1
              let pos' :=
                match mapFind? st.index_map current' with
                | some bp =>
                  if ¬ (bp = p2) ∧ current' < st.next_offset then bp else p2
                | none => p2
              getMsgsGo st fuel current' pos' acc'
            else acc
      else acc
    else acc

/-- `Topic::get_messages`: empty when `start_offset ≥ next_offset_` or
`max_messages = 0`; otherwise seek to `lower_bound(start_offset)` and run
the read loop. -/
def get_messages (st : TopicState) (start_offset : Nat) (max_messages : Nat) : List Msg :=
  if st.next_offset ≤ start_offset ∨ max_messages = 0 then []
  else
    match mapLowerBound? st.index_map start_offset with
    | none => []
    | some (k, bp) => getMsgsGo st max_messages k bp []

/-- `Topic::get_next_offset`. -/
def get_next_offset (st : TopicState) : Nat :=
  st.next_offset

/-! ## Startup recovery (`Topic::load_or_create_files` and helpers) -/

/-- On-disk state of a topic directory at startup; `meta = none` models a
missing `metadata.meta`. -/
structure DiskState where
  dataLog : List Nat
  idxFile : List Nat
  meta : Option (List Nat)
deriving DecidableEq, Repr

/-- `Topic::load_metadata`: read the u64 `next_offset_`; on a missing or
short file, assume 0 and rewrite metadata. Returns `next_offset_` and the
metadata file content afterwards. -/
def load_metadata (meta : Option (List Nat)) : Nat × List Nat :=
  match meta with
  | none => (0, toBytesLE 8 0)
  | some bs =>
    if 8 ≤ bs.length then (fromBytesLE (bs.take 8), bs)
    else (0, toBytesLE 8 0)

/-- Loop of `Topic::load_index`: read `(offset, byte_position)` u64 pairs
until EOF or a short read, storing each into the map (later pairs for the
same offset overwrite earlier ones). -/
def loadIndexGo (bytes : List Nat) : Nat → Nat → IndexMap → IndexMap
  | 0, _, m => m
  | fuel + 1, pos, m =>
    if pos < bytes.length then
      match readBin 8 bytes pos with
      | none => m
      | some (off, p1) =>
        match readBin 8 bytes p1 with
        | none => m
        | some (bp, p2) => loadIndexGo bytes fuel p2 (mapInsert m off bp)
    else m

/-- `Topic::load_index`. -/
def load_index (bytes : List Nat) : IndexMap :=
  loadIndexGo bytes (bytes.length + 1) 0 []

/-- The trigger condition of `Topic::rebuild_index_if_needed`:
`next_offset_ > 0 && (index empty || max index offset < next_offset_ - 1)`,
and then the data log must exist and be non-empty. -/
def needs_rebuild (st : TopicState) : Bool :=
  if 0 < st.next_offset ∧
      (st.index_map = [] ∨ mapMaxKey st.index_map < st.next_offset - 1) then
    if st.dataLog ≠ [] then true else false
  else false

/-- Mutable state of the data-log scan in `rebuild_index_if_needed`:
the index map, `highest_recovered_offset`, the index file content (the
writer was reopened in truncate mode when the map was empty, append mode
otherwise), and `recovered_offset_count`. -/
structure ScanSt where
  m : IndexMap
  highest : Nat
  idx : List Nat
  recovered : Nat
deriving DecidableEq, Repr

/-- The scan loop of `rebuild_index_if_needed`: parse each record's
offset and payload length, skip the payload (stopping on a short header,
an oversized length, or a seek past EOF), and for each parsed offset that
is missing from the map and `< next_offset_`, insert it and append a
fresh index pair; `highest_recovered_offset` tracks every parsed offset. -/
def scanGo (dataLog : List Nat) (next_off : Nat) : Nat → Nat → ScanSt → ScanSt
  | 0, _, s => s
  | fuel + 1, pos, s =>
    if pos < dataLog.length then
      match readBin 8 dataLog pos with
      | none => s
      | some (off, p1) =>
        match readBin 4 dataLog p1 with
        | none => s
        | some (plen, p2) =>
          if MAXLEN < plen then s
          else if dataLog.length < p2 + plen then s
          else
            let s1 :=
              if mapFind? s.m off = none ∧ off < next_off then
                { s with
                    m := mapInsert s.m off pos
                    idx := s.idx ++ toBytesLE 8 off ++ toBytesLE 8 pos
                    recovered := s.recovered + 1 }
              else s
            scanGo dataLog next_off fuel (p2 + plen)
              { s1 with highest := max s1.highest off }
    else s

/-- Outcome of `rebuild_index_if_needed`: the topic state afterwards,
whether the data-log scan ran, and whether metadata was rewritten. -/
structure RebuildResult where
  st : TopicState
  scanned : Bool
  metaSaved : Bool
deriving DecidableEq, Repr

/-- Initial scan state: the loaded map, `highest_recovered_offset`
initialised to the map's greatest key (0 if empty), and the index file
truncated exactly when the map is empty. -/
def scanInit (st : TopicState) : ScanSt :=
  ⟨st.index_map,
   if st.index_map = [] then 0 else mapMaxKey st.index_map,
   if st.index_map = [] then [] else st.indexFile,
   0⟩

/-- `Topic::rebuild_index_if_needed`: run the scan when triggered, then
recompute `next_offset_` (greatest indexed offset + 1 when the map is
non-empty; 0 when the data log is empty; otherwise the u64 ternary on
`highest_recovered_offset`) and rewrite metadata exactly when the value
changed. -/
def rebuild_index_if_needed (st : TopicState) : RebuildResult :=
  if needs_rebuild st then
    let r := scanGo st.dataLog st.next_offset (st.dataLog.length + 1) 0 (scanInit st)
    let newNext :=
      if r.m ≠ [] then (mapMaxKey r.m + 1) % U64
      else if st.dataLog.length = 0 then 0
      else if st.next_offset = 0 ∧ r.highest = 0 ∧ r.m = [] then 0
      else (r.highest + 1) % U64
    if newNext ≠ st.next_offset then
      ⟨{ st with
          index_map := r.m
          indexFile := r.idx
          next_offset := newNext
          metadata := toBytesLE 8 newNext }, true, true⟩
    else
      ⟨{ st with index_map := r.m, indexFile := r.idx }, true, false⟩
  else ⟨st, false, false⟩

/-- The `Topic` constructor on an existing directory: load metadata, load
the index, then reconcile against the data log. -/
def loadTopic (name : String) (d : DiskState) : TopicState :=
  let nm := load_metadata d.meta
  let m0 := load_index d.idxFile
  (rebuild_index_if_needed
    ⟨name, d.dataLog, d.idxFile, nm.2, nm.1, m0⟩).st

/-- The `Topic` constructor on a fresh directory (empty files, no
metadata), as `EventQueue::get_or_create_topic` builds it. -/
def freshTopic (name : String) : TopicState :=
  loadTopic name ⟨[], [], none⟩

/-! ## Produce/consume facade (`EventQueue.cpp`) -/

/-- The exceptions `EventQueue` throws. -/
inductive EQError where
  | invalidArgument (msg : String)
  | runtimeError (msg : String)
deriving DecidableEq, Repr

/-- The facade's topic registry (`std::map<std::string, std::unique_ptr<Topic>>`). -/
structure EventQueue where
  topics : List (String × TopicState)
deriving DecidableEq, Repr

/-- `EventQueue::get_or_create_topic`'s result for `produce`: the
existing topic, or a freshly constructed one. -/
def topicOf (q : EventQueue) (topic_name : String) : TopicState :=
  match alFind? q.topics topic_name with
  | some t => t
  | none => freshTopic topic_name

/-- `EventQueue::produce`: reject an empty topic name or payload, get or
create the topic, append, and return the new queue state and the offset
(the fan-out notification is issued separately through the listener,
modelled by `on_new_message` below). -/
def produce (q : EventQueue) (topic_name : String) (payload : List Nat) :
    Except EQError (EventQueue × Nat) :=
  if topic_name = "" ∨ payload = [] then
    .error (.invalidArgument "Topic name and payload cannot be empty.")
  else
    let t := topicOf q topic_name
    let r := append_message t payload
    .ok (⟨alUpsert q.topics topic_name r.1⟩, r.2)

/-- `EventQueue::consume`: reject an empty topic name; return `[]` for a
missing topic; otherwise delegate to `Topic::get_messages`. -/
def consume (q : EventQueue) (topic_name : String) (start_offset : Nat)
    (max_messages : Nat) : Except EQError (List Msg) :=
  if topic_name = "" then
    .error (.invalidArgument "Topic name cannot be empty.")
  else
    match alFind? q.topics topic_name with
    | none => .ok []
    | some t => .ok (get_messages t start_offset max_messages)

/-- `EventQueue::get_next_topic_offset`: reject an empty topic name;
return 0 for a missing topic; otherwise the topic's `next_offset_`. -/
def get_next_topic_offset (q : EventQueue) (topic_name : String) :
    Except EQError Nat :=
  if topic_name = "" then
    .error (.invalidArgument "Topic name cannot be empty.")
  else
    match alFind? q.topics topic_name with
    | none => .ok 0
    | some t => .ok (get_next_offset t)

/-! ## Subscription registry (`SubscriptionManager.cpp`) -/

/-- `SubscriberInfo`: the delivery callback and executor are external
values the registry only stores and hands to `boost::asio::post`; they
are modelled as opaque handles. -/
structure SubscriberInfo where
  subscriber_id : String
  next_offset_needed : Nat
  deliver_messages : Nat
  client_executor : Nat
deriving DecidableEq, Repr

/-- A topic's subscriber map (`std::map<std::string, SubscriberInfo>`). -/
abbrev SubMap := List (String × SubscriberInfo)

/-- `topic_subscriptions_`. -/
abbrev SubRegistry := List (String × SubMap)

/-- A task posted on a subscriber's executor by `on_new_message`; the
lambda captures the callback, topic, one-element batch and subscriber id. -/
structure DeliveryTask where
  client_executor : Nat
  deliver_messages : Nat
  topic : String
  batch : List Msg
  subscriber_id : String
deriving DecidableEq, Repr

/-- `SubscriptionManager::subscribe`: upsert the entry with
`next_offset_needed = start_offset` (always returns true). -/
def subscribe (reg : SubRegistry) (topic_name subscriber_id : String)
    (start_offset : Nat) (client_executor deliver : Nat) : SubRegistry :=
  let subs := (alFind? reg topic_name).getD []
  alUpsert reg topic_name
    (alUpsert subs subscriber_id
      ⟨subscriber_id, start_offset, deliver, client_executor⟩)

/-- `SubscriptionManager::unsubscribe`: remove the entry; drop the topic
when its map becomes empty; report whether an entry was removed. -/
def unsubscribe (reg : SubRegistry) (topic_name subscriber_id : String) :
    SubRegistry × Bool :=
  match alFind? reg topic_name with
  | none => (reg, false)
  | some subs =>
    if (alFind? subs subscriber_id).isSome then
      if alErase subs subscriber_id = [] then (alErase reg topic_name, true)
      else (alUpsert reg topic_name (alErase subs subscriber_id), true)
    else (reg, false)

/-- `SubscriptionManager::unsubscribe_all`: sweep the subscriber out of
every topic map, dropping topics whose map ends up empty. -/
def unsubscribe_all (reg : SubRegistry) (subscriber_id : String) : SubRegistry :=
  (reg.map (fun p => (p.1, alErase p.2 subscriber_id))).filter
    (fun p => ¬ (p.2 = []))

/-- The per-subscriber loop of `SubscriptionManager::on_new_message`:
for each subscriber with `offset ≥ next_offset_needed`, emit a delivery
task carrying the one-element batch and advance `next_offset_needed` to
`offset + 1`; others are untouched. Tasks are emitted in map order. -/
def notifySubs (msg : Msg) : SubMap → SubMap × List DeliveryTask
  | [] => ([], [])
  | (sid, info) :: rest =>
    let r := notifySubs msg rest
    if info.next_offset_needed ≤ msg.offset then
      ((sid, { info with next_offset_needed := msg.offset + 1 }) :: r.1,
       ⟨info.client_executor, info.deliver_messages, msg.topic, [msg],
        info.subscriber_id⟩ :: r.2)
    else ((sid, info) :: r.1, r.2)

/-- `SubscriptionManager::on_new_message`: look up the record's topic;
if absent, return; otherwise run the per-subscriber loop and store the
updated map back. Returns the registry and the posted delivery tasks. -/
def on_new_message (reg : SubRegistry) (msg : Msg) :
    SubRegistry × List DeliveryTask :=
  match alFind? reg msg.topic with
  | none => (reg, [])
  | some subs =>
    let r := notifySubs msg subs
    (alUpsert reg msg.topic r.1, r.2)

/-- Lookup of one subscriber entry, for stating properties. -/
def findSub? (reg : SubRegistry) (topic_name subscriber_id : String) :
    Option SubscriberInfo :=
  match alFind? reg topic_name with
  | none => none
  | some subs => alFind? subs subscriber_id

/-- Well-formedness of one topic's subscriber map, guaranteed by
`std::map` in the source: keys are distinct, and each entry's stored
`subscriber_id` field is its key. -/
def SubsWF (subs : SubMap) : Prop :=
  (subs.map Prod.fst).Nodup ∧ ∀ p ∈ subs, p.2.subscriber_id = p.1

/-- Well-formedness of the whole registry: distinct topic keys and
well-formed subscriber maps. -/
def RegWF (reg : SubRegistry) : Prop :=
  (reg.map Prod.fst).Nodup ∧ ∀ p ∈ reg, SubsWF p.2

/-! ## Concrete inputs used to settle individual claims -/

/-- Iterated `append_message`, collecting the returned offsets. -/
def appendAll (st : TopicState) : List (List Nat) → TopicState × List Nat
  | [] => (st, [])
  | p :: ps =>
    let r := append_message st p
    let r2 := appendAll r.1 ps
    (r2.1, r.2 :: r2.2)

/-- Loaded state of a topic whose very first append crashed after the
data-log flush: one full record in the data log, empty index, metadata
still holding 0 (written by the constructor). -/
def c2State : TopicState :=
  ⟨"t", encRecord 0 [97], [], toBytesLE 8 0, 0, []⟩

/-- On-disk state left by a crash during the append of record 1, after
the data-log and index flushes of record 0 and the data-log flush of
record 1, before the index and metadata flushes of record 1: the data
log holds full records 0 and 1, the index file only the pair `(0, 0)`,
and metadata holds 1. -/
def c3Disk : DiskState :=
  ⟨encRecord 0 [97] ++ encRecord 1 [98],
   toBytesLE 8 0 ++ toBytesLE 8 0,
   some (toBytesLE 8 1)⟩

/-- Loaded state with metadata 5, an empty index, and a data log whose
first record is unreadable (only 3 bytes, shorter than a header). -/
def c4State : TopicState :=
  ⟨"t", [1, 2, 3], [], toBytesLE 8 5, 5, []⟩

/-! # Proofs -/

/-! ## Basic lemmas about the codec and the maps -/

theorem toBytesLE_length (w v : Nat) : (toBytesLE w v).length = w := by
  induction w generalizing v with
  | zero => rfl
  | succ n ih => simp [toBytesLE, ih]

theorem fromBytesLE_toBytesLE (w v : Nat) :
    fromBytesLE (toBytesLE w v) = v % 256 ^ w := by
  induction w generalizing v with
  | zero => simp [toBytesLE, fromBytesLE, Nat.mod_one]
  | succ n ih =>
    have hm : v % 256 ^ (n + 1) = v % 256 + 256 * (v / 256 % 256 ^ n) := by
      rw [Nat.pow_succ']
      exact Nat.mod_mul
    simp [toBytesLE, fromBytesLE, ih, hm]

/-- The trigger condition of the recovery scan, flattened. -/
theorem needs_rebuild_iff (st : TopicState) :
    needs_rebuild st = true ↔
      0 < st.next_offset ∧ st.dataLog ≠ [] ∧
        (st.index_map = [] ∨ mapMaxKey st.index_map < st.next_offset - 1) := by
  unfold needs_rebuild
  split_ifs with h1 h2 <;> simp_all

theorem alFind?_alUpsert_self {κ α : Type} [DecidableEq κ]
    (l : List (κ × α)) (k : κ) (v : α) :
    alFind? (alUpsert l k v) k = some v := by
  induction l with
  | nil => simp [alUpsert, alFind?]
  | cons p rest ih =>
    obtain ⟨k1, v1⟩ := p
    by_cases h : k1 = k
    · simp [alUpsert, h, alFind?]
    · simpa [alUpsert, h, alFind?] using ih

theorem alFind?_alUpsert_ne {κ α : Type} [DecidableEq κ]
    (l : List (κ × α)) (k k2 : κ) (v : α) (h : k2 ≠ k) :
    alFind? (alUpsert l k v) k2 = alFind? l k2 := by
  have h' : ¬ k = k2 := fun he => h he.symm
  induction l with
  | nil => simp [alUpsert, alFind?, h']
  | cons p rest ih =>
    obtain ⟨k1, v1⟩ := p
    by_cases hp : k1 = k
    · subst hp
      simp [alUpsert, alFind?, h']
    · simp [alUpsert, hp, alFind?, ih]

theorem alFind?_none_of_not_mem {κ α : Type} [DecidableEq κ]
    (l : List (κ × α)) (k : κ) (h : k ∉ l.map Prod.fst) :
    alFind? l k = none := by
  induction l with
  | nil => rfl
  | cons p rest ih =>
    simp only [List.map_cons, List.mem_cons] at h
    push_neg at h
    have h1 : ¬ p.1 = k := fun he => h.1 he.symm
    simp [alFind?, h1, ih h.2]

theorem alFind?_mem {κ α : Type} [DecidableEq κ]
    (l : List (κ × α)) (k : κ) (v : α) (h : alFind? l k = some v) :
    (k, v) ∈ l := by
  induction l with
  | nil => simp [alFind?] at h
  | cons p rest ih =>
    obtain ⟨k1, v1⟩ := p
    by_cases hp : k1 = k
    · subst hp
      simp only [alFind?, if_pos] at h
      injection h with h2
      subst h2
      exact List.mem_cons_self _ _
    · simp only [alFind?, hp, if_false] at h
      exact List.mem_cons_of_mem _ (ih h)

/-! ## C10 — empty topic name raises invalid-argument -/

/-- C10: for the empty topic name, `consume` and `get_next_offset` do
not apply the soft not-found behaviour: both raise an invalid-argument
error for every queue state and arguments. -/
theorem empty_topic_name_raises (q : EventQueue) (s m : Nat) :
    consume q "" s m =
      .error (.invalidArgument "Topic name cannot be empty.") ∧
    get_next_topic_offset q "" =
      .error (.invalidArgument "Topic name cannot be empty.") := by
  constructor <;> rfl

/-! ## C9 — soft not-found, corrected to non-empty names -/

/-- C9 counterexample: the empty topic name is absent from the registry
of a fresh queue, yet `consume` raises an invalid-argument error rather
than returning the empty list. -/
theorem soft_notfound_counterexample :
    alFind? (EventQueue.topics ⟨[]⟩) "" = none ∧
    consume ⟨[]⟩ "" 0 1 =
      .error (.invalidArgument "Topic name cannot be empty.") := by
  constructor <;> rfl

/-- C9 amended: for every non-empty topic name that does not exist in
the registry, `consume` returns the empty list and `get_next_offset`
returns 0, without raising an error. -/
theorem soft_notfound_nonempty (q : EventQueue) (T : String) (s m : Nat)
    (hT : T ≠ "") (h : alFind? q.topics T = none) :
    consume q T s m = .ok [] ∧ get_next_topic_offset q T = .ok 0 := by
  unfold consume get_next_topic_offset
  rw [if_neg hT, if_neg hT, h]
  exact ⟨rfl, rfl⟩

/-- Witness for the amended C9 at a fresh queue and the name "a". -/
theorem soft_notfound_nonempty_witness :
    consume ⟨[]⟩ "a" 0 1 = .ok [] ∧
    get_next_topic_offset ⟨[]⟩ "a" = .ok 0 :=
  soft_notfound_nonempty ⟨[]⟩ "a" 0 1 (by decide) rfl

/-! ## C2 — scan trigger, corrected: `next_offset > 0` is also required -/

/-- C2 counterexample: with a non-empty data log, an empty loaded index
map, and metadata holding 0, the claimed condition says the scan runs,
but the code does not scan (the `next_offset_ > 0` conjunct fails). -/
theorem rebuild_trigger_counterexample :
    c2State.dataLog ≠ [] ∧ c2State.index_map = [] ∧
    c2State.next_offset = 0 ∧ needs_rebuild c2State = false := by
  refine ⟨by decide, rfl, rfl, rfl⟩

/-- C2 amended: the scan runs iff `next_offset > 0` (as read from
metadata) and the data log is non-empty and (the loaded index map is
empty or its highest offset is less than `next_offset − 1`). -/
theorem rebuild_trigger_characterization (st : TopicState) :
    needs_rebuild st = true ↔
      0 < st.next_offset ∧ st.dataLog ≠ [] ∧
        (st.index_map = [] ∨ mapMaxKey st.index_map < st.next_offset - 1) :=
  needs_rebuild_iff st

/-! ## C3 — the crash-tail record is not recovered (code bug) -/

/-- C3: at the on-disk state left by a crash between the data-log flush
and the metadata flush of record 1 (`c3Disk`), startup recovery does not
recover the tail record: it stays absent from the index map,
`next_offset` stays 1 instead of 2, and a read at offset 1 returns
nothing, contradicting the documented recovery guarantee. -/
theorem tail_record_not_recovered :
    (loadTopic "t" c3Disk).next_offset = 1 ∧
    mapFind? (loadTopic "t" c3Disk).index_map 1 = none ∧
    get_messages (loadTopic "t" c3Disk) 1 1 = [] := by
  refine ⟨rfl, rfl, rfl⟩

/-! ## C4 — recomputed next_offset after the scan, corrected -/

/-- C4 counterexample: a scan that recovers nothing (metadata 5, empty
index, unreadable data log) leaves the index map empty, yet the code
sets `next_offset` to 1, not to 0 as the claim states. -/
theorem recovery_next_offset_counterexample :
    (rebuild_index_if_needed c4State).scanned = true ∧
    (rebuild_index_if_needed c4State).st.index_map = [] ∧
    (rebuild_index_if_needed c4State).st.next_offset = 1 := by
  refine ⟨rfl, rfl, rfl⟩

/-- C4 amended: at the end of the scan, `next_offset` is recomputed as
(highest offset in the index map) + 1 (a u64 increment) when the map is
non-empty, and as `highest_recovered_offset + 1` — which is 1, not 0,
when every record was unreadable — when the map is empty; metadata is
rewritten exactly when the recomputed value differs from the value read
from disk. -/
theorem recovery_next_offset_recomputation (st : TopicState)
    (h : needs_rebuild st = true) :
    ((rebuild_index_if_needed st).st.next_offset =
      (if (scanGo st.dataLog st.next_offset (st.dataLog.length + 1) 0
            (scanInit st)).m = []
       then ((scanGo st.dataLog st.next_offset (st.dataLog.length + 1) 0
            (scanInit st)).highest + 1) % U64
       else (mapMaxKey (scanGo st.dataLog st.next_offset
            (st.dataLog.length + 1) 0 (scanInit st)).m + 1) % U64)) ∧
    ((rebuild_index_if_needed st).metaSaved = true ↔
      ¬ (rebuild_index_if_needed st).st.next_offset = st.next_offset) := by
  obtain ⟨h0, hdl, _⟩ := (needs_rebuild_iff st).mp h
  have hlen : ¬ st.dataLog.length = 0 := fun hz => hdl (List.length_eq_zero.mp hz)
  have h0' : ¬ st.next_offset = 0 := Nat.pos_iff_ne_zero.mp h0
  simp only [rebuild_index_if_needed, h, if_true, hlen, h0', false_and,
    if_false, ite_false, ne_eq]
  split_ifs with h1 h2 h3 <;> simp_all

/-- Witness for the amended C4 at the concrete scan of `c4State`. -/
theorem recovery_next_offset_recomputation_witness :
    (rebuild_index_if_needed c4State).st.next_offset =
      (if (scanGo c4State.dataLog c4State.next_offset
            (c4State.dataLog.length + 1) 0 (scanInit c4State)).m = []
       then ((scanGo c4State.dataLog c4State.next_offset
            (c4State.dataLog.length + 1) 0 (scanInit c4State)).highest + 1) % U64
       else (mapMaxKey (scanGo c4State.dataLog c4State.next_offset
            (c4State.dataLog.length + 1) 0 (scanInit c4State)).m + 1) % U64) :=
  (recovery_next_offset_recomputation c4State rfl).1

/-! ## C1 — contiguous offsets -/

theorem appendAll_offsets (ps : List (List Nat)) (st : TopicState)
    (h : st.next_offset + ps.length ≤ U64) :
    (appendAll st ps).2 = List.range' st.next_offset ps.length := by
  induction ps generalizing st with
  | nil => rfl
  | cons p ps ih =>
    simp only [appendAll, List.length_cons] at h ⊢
    rw [List.range'_succ]
    by_cases hw : st.next_offset + 1 < U64
    · have hnext : (append_message st p).1.next_offset = st.next_offset + 1 := by
        simp only [append_message]
        exact Nat.mod_eq_of_lt hw
      have hle : (append_message st p).1.next_offset + ps.length ≤ U64 := by
        rw [hnext]; omega
      have ih' := ih (append_message st p).1 hle
      rw [hnext] at ih'
      rw [ih']
      rfl
    · have hps : ps = [] := List.length_eq_zero.mp (by omega)
      subst hps
      rfl

/-- C1: starting from a fresh topic, iterated appends return the
contiguous offsets 0, 1, 2, …; each append returns the current
`next_offset` and advances it by one (a u64 increment). -/
theorem offsets_contiguous_from_fresh (nm : String) (ps : List (List Nat))
    (h : ps.length ≤ U64) :
    (appendAll (freshTopic nm) ps).2 = List.range ps.length ∧
    ∀ st p, (append_message st p).2 = st.next_offset ∧
      (append_message st p).1.next_offset = (st.next_offset + 1) % U64 := by
  constructor
  · have h0 : (freshTopic nm).next_offset = 0 := rfl
    have hh : (freshTopic nm).next_offset + ps.length ≤ U64 := by rw [h0]; omega
    rw [appendAll_offsets ps (freshTopic nm) hh, h0, List.range_eq_range']
  · exact fun st p => ⟨rfl, rfl⟩

/-- Witness for C1 with two appends to a fresh topic. -/
theorem offsets_contiguous_from_fresh_witness :
    (appendAll (freshTopic "w") [[1], [2]]).2 = List.range 2 :=
  (offsets_contiguous_from_fresh "w" [[1], [2]] (by decide)).1

/-! ## C5 — bounds on read results -/

theorem getMsgsGo_length (st : TopicState) :
    ∀ (fuel current pos : Nat) (acc : List Msg),
      (getMsgsGo st fuel current pos acc).length ≤ acc.length + fuel := by
  intro fuel
  induction fuel with
  | zero =>
    intro c p acc
    simp [getMsgsGo]
  | succ n ih =>
    intro c pos acc
    unfold getMsgsGo
    split
    · split
      · split
        · omega
        · split
          · omega
          · split
            · refine le_trans (ih _ _ _) ?_
              simp only [List.length_append, List.length_cons, List.length_nil]
              omega
            · omega
      · omega
    · omega

theorem getMsgsGo_offsets (st : TopicState) :
    ∀ (fuel current pos : Nat) (acc : List Msg),
      (∀ m ∈ acc, m.offset < st.next_offset) →
      ∀ m ∈ getMsgsGo st fuel current pos acc, m.offset < st.next_offset := by
  intro fuel
  induction fuel with
  | zero =>
    intro c p acc hacc
    simpa [getMsgsGo] using hacc
  | succ n ih =>
    intro c pos acc hacc
    unfold getMsgsGo
    split
    · next hc =>
      split
      · split
        · exact hacc
        · split
          · exact hacc
          · split
            · apply ih
              intro m hm
              rcases List.mem_append.mp hm with hm1 | hm2
              · exact hacc m hm1
              · simp only [List.mem_singleton] at hm2
                subst hm2
                exact hc
            · exact hacc
      · exact hacc
    · exact hacc

/-- C5: a read returns the empty list when `start_offset ≥ next_offset`
or `max_records = 0`; otherwise it returns at most `max_records` records
and every returned record has offset `< next_offset`. -/
theorem read_bounds (st : TopicState) (start_offset max_messages : Nat) :
    ((st.next_offset ≤ start_offset ∨ max_messages = 0) →
      get_messages st start_offset max_messages = []) ∧
    (get_messages st start_offset max_messages).length ≤ max_messages ∧
    ∀ m ∈ get_messages st start_offset max_messages,
      m.offset < st.next_offset := by
  refine ⟨?_, ?_, ?_⟩
  · intro h
    simp [get_messages, h]
  · unfold get_messages
    split
    · simp
    · split
      · simp
      · next k bp _ =>
        have := getMsgsGo_length st max_messages k bp []
        simpa using this
  · unfold get_messages
    split
    · simp
    · split
      · simp
      · next k bp _ =>
        exact getMsgsGo_offsets st max_messages k bp [] (by simp)

/-- Witness for C5: reading zero records from a fresh topic. -/
theorem read_bounds_witness :
    get_messages (freshTopic "w") 0 0 = [] :=
  (read_bounds (freshTopic "w") 0 0).1 (Or.inr rfl)

/-! ## C6 — produce/consume round trip -/

theorem readBin_at_append (l rest : List Nat) (w v : Nat) :
    readBin w (l ++ (toBytesLE w v ++ rest)) l.length =
      some (v % 256 ^ w, l.length + w) := by
  unfold readBin
  rw [if_pos (by simp only [List.length_append, toBytesLE_length]; omega)]
  have hdt : ((l ++ (toBytesLE w v ++ rest)).drop l.length).take w = toBytesLE w v := by
    rw [List.drop_left, List.take_left' (toBytesLE_length w v)]
  rw [hdt, fromBytesLE_toBytesLE]

theorem readStr_at_append (l rest p : List Nat) (hlen : p.length ≤ MAXLEN) :
    readStr (l ++ (toBytesLE 4 p.length ++ (p ++ rest))) l.length =
      some (p, l.length + 4 + p.length) := by
  have h32 : p.length < 256 ^ 4 := lt_of_le_of_lt hlen (by decide)
  have hassoc : l ++ (toBytesLE 4 p.length ++ (p ++ rest))
      = (l ++ toBytesLE 4 p.length) ++ (p ++ rest) := by
    simp [List.append_assoc]
  have hd : (l ++ (toBytesLE 4 p.length ++ (p ++ rest))).drop (l.length + 4)
      = p ++ rest := by
    rw [hassoc]
    exact List.drop_left' (by simp [toBytesLE_length])
  simp only [readStr, readBin_at_append, Nat.mod_eq_of_lt h32]
  rw [if_neg (by omega : ¬ MAXLEN < p.length)]
  rw [if_pos (by simp only [List.length_append, toBytesLE_length]; omega)]
  rw [hd, List.take_left' rfl]

theorem encRecord_small (off : Nat) (p : List Nat) (h : p.length < U32) :
    encRecord off p = toBytesLE 8 off ++ (toBytesLE 4 p.length ++ (p ++ [])) := by
  unfold encRecord
  rw [Nat.mod_eq_of_lt h, List.take_length, List.append_nil, List.append_assoc]

theorem minKeyEntry?_append_gt (xs : List (Nat × Nat)) (k v : Nat)
    (h : ∀ q ∈ xs, k < q.1) :
    minKeyEntry? (xs ++ [(k, v)]) = some (k, v) := by
  induction xs with
  | nil => rfl
  | cons q rest ih =>
    have hq := h q (List.mem_cons_self _ _)
    have ih' := ih (fun r hr => h r (List.mem_cons_of_mem _ hr))
    show (match minKeyEntry? (rest ++ [(k, v)]) with
      | none => some q
      | some q2 => if q2.1 < q.1 then some q2 else some q) = some (k, v)
    rw [ih']
    simp [hq]

theorem mapLowerBound?_mapInsert_self (m : IndexMap) (k v : Nat) :
    mapLowerBound? (mapInsert m k v) k = some (k, v) := by
  unfold mapLowerBound? mapInsert
  rw [List.filter_append]
  have h1 : List.filter (fun p => decide (k ≤ p.1)) [(k, v)] = [(k, v)] := by simp
  rw [h1]
  apply minKeyEntry?_append_gt
  intro q hq
  simp only [List.mem_filter, decide_eq_true_eq] at hq
  omega

/-- Reading one record at the freshly appended offset returns exactly
that record (the core of the round trip, at topic level). -/
theorem get_messages_after_append (t : TopicState) (p : List Nat)
    (hlen : p.length ≤ MAXLEN) (hnov : t.next_offset + 1 < U64) :
    get_messages (append_message t p).1 t.next_offset 1 =
      [⟨t.next_offset, t.name, p⟩] := by
  have hp32 : p.length < U32 := lt_of_le_of_lt hlen (by decide)
  have hk : t.next_offset < U64 := by omega
  have hU : (256 : Nat) ^ 8 = U64 := by decide
  have hdata : (append_message t p).1.dataLog
      = t.dataLog ++ (toBytesLE 8 t.next_offset ++ (toBytesLE 4 p.length ++ (p ++ []))) := by
    simp only [append_message]
    rw [encRecord_small _ _ hp32]
  have hnext : (append_message t p).1.next_offset = t.next_offset + 1 := by
    simp only [append_message]
    exact Nat.mod_eq_of_lt hnov
  have hmap : (append_message t p).1.index_map
      = mapInsert t.index_map t.next_offset t.dataLog.length := rfl
  have hname : (append_message t p).1.name = t.name := rfl
  have hrb : readBin 8 (append_message t p).1.dataLog t.dataLog.length
      = some (t.next_offset, t.dataLog.length + 8) := by
    rw [hdata, readBin_at_append, hU, Nat.mod_eq_of_lt hk]
  have hrs : readStr (append_message t p).1.dataLog (t.dataLog.length + 8)
      = some (p, t.dataLog.length + 8 + 4 + p.length) := by
    rw [hdata]
    have hassoc : t.dataLog ++ (toBytesLE 8 t.next_offset ++ (toBytesLE 4 p.length ++ (p ++ [])))
        = (t.dataLog ++ toBytesLE 8 t.next_offset) ++ (toBytesLE 4 p.length ++ (p ++ [])) := by
      simp [List.append_assoc]
    have hlen8 : (t.dataLog ++ toBytesLE 8 t.next_offset).length = t.dataLog.length + 8 := by
      simp [toBytesLE_length]
    rw [hassoc, ← hlen8, readStr_at_append _ _ _ hlen, hlen8]
  have hpos : t.dataLog.length < (append_message t p).1.dataLog.length := by
    rw [hdata]
    simp [toBytesLE_length]
  unfold get_messages
  rw [hnext, hmap]
  rw [if_neg (by omega : ¬ (t.next_offset + 1 ≤ t.next_offset ∨ (1 : Nat) = 0))]
  rw [mapLowerBound?_mapInsert_self]
  unfold getMsgsGo
  rw [hnext, if_pos (by omega : t.next_offset < t.next_offset + 1),
    if_pos hpos, hrb]
  simp only [hrs, if_pos rfl]
  unfold getMsgsGo
  rw [hname]
  simp

/-- C6: produce then consume at the returned offset yields exactly the
produced record, for every queue state whose stored topic (if any) is
well-formed (its name matches its key and its offset counter does not
overflow), every non-empty topic name, and every non-empty payload small
enough to be read back (at most the 100 MiB read bound). -/
theorem produce_consume_roundtrip (q : EventQueue) (T : String) (p : List Nat)
    (hT : T ≠ "") (hp : p ≠ []) (hlen : p.length ≤ MAXLEN)
    (hname : (topicOf q T).name = T)
    (hnov : (topicOf q T).next_offset + 1 < U64) :
    ∀ q' k, produce q T p = .ok (q', k) →
      consume q' T k 1 = .ok [⟨k, T, p⟩] := by
  intro q' k hprod
  have hqk : q' = ⟨alUpsert q.topics T (append_message (topicOf q T) p).1⟩ ∧
      k = (topicOf q T).next_offset := by
    unfold produce at hprod
    rw [if_neg (by simp [hT, hp])] at hprod
    simp only [Except.ok.injEq, Prod.mk.injEq] at hprod
    exact ⟨hprod.1.symm, hprod.2.symm⟩
  obtain ⟨hq', hk⟩ := hqk
  subst hq'
  subst hk
  simp only [consume, if_neg hT, alFind?_alUpsert_self]
  rw [get_messages_after_append _ _ hlen hnov, hname]

/-- Witness for C6: producing `[120]` on topic "a" of a fresh queue and
consuming it back. -/
theorem produce_consume_roundtrip_witness :
    consume ⟨[("a", (append_message (freshTopic "a") [120]).1)]⟩ "a" 0 1 =
      .ok [⟨0, "a", [120]⟩] :=
  produce_consume_roundtrip ⟨[]⟩ "a" [120] (by decide) (by decide) (by decide)
    rfl (by decide) ⟨[("a", (append_message (freshTopic "a") [120]).1)]⟩ 0 rfl

/-! ## Further association-list lemmas, for the subscription registry -/

theorem alFind?_map_value {κ α : Type} [DecidableEq κ] (g : κ × α → α)
    (l : List (κ × α)) (k : κ) :
    alFind? (l.map (fun q => (q.1, g q))) k =
      Option.map (fun v => g (k, v)) (alFind? l k) := by
  induction l with
  | nil => rfl
  | cons q rest ih =>
    obtain ⟨k1, v1⟩ := q
    by_cases h : k1 = k
    · subst h
      simp [alFind?]
    · simp [alFind?, h, ih]

theorem map_value_keys {κ α : Type} (g : κ × α → α) (l : List (κ × α)) :
    (l.map (fun q => (q.1, g q))).map Prod.fst = l.map Prod.fst := by
  induction l <;> simp_all

theorem alErase_sublist {κ α : Type} [DecidableEq κ] (l : List (κ × α)) (k : κ) :
    (alErase l k).Sublist l := by
  induction l with
  | nil => simp [alErase]
  | cons q rest ih =>
    obtain ⟨k1, v1⟩ := q
    by_cases h : k1 = k
    · simp only [alErase, h, if_pos]
      exact List.sublist_cons_self _ _
    · simp only [alErase, h, if_false]
      exact List.Sublist.cons₂ _ ih

theorem alErase_mem {κ α : Type} [DecidableEq κ] (l : List (κ × α)) (k : κ)
    (q : κ × α) (h : q ∈ alErase l k) : q ∈ l :=
  (alErase_sublist l k).subset h

theorem alErase_keys_nodup {κ α : Type} [DecidableEq κ] (l : List (κ × α)) (k : κ)
    (h : (l.map Prod.fst).Nodup) : ((alErase l k).map Prod.fst).Nodup :=
  List.Nodup.sublist ((alErase_sublist l k).map Prod.fst) h

theorem alFind?_alErase_self {κ α : Type} [DecidableEq κ] (l : List (κ × α)) (k : κ)
    (h : (l.map Prod.fst).Nodup) : alFind? (alErase l k) k = none := by
  induction l with
  | nil => rfl
  | cons q rest ih =>
    obtain ⟨k1, v1⟩ := q
    simp only [List.map_cons, List.nodup_cons] at h
    by_cases hk : k1 = k
    · subst hk
      simp only [alErase, if_pos]
      exact alFind?_none_of_not_mem rest k1 h.1
    · simp [alErase, hk, alFind?, ih h.2]

theorem alFind?_alErase_ne {κ α : Type} [DecidableEq κ] (l : List (κ × α)) (k k2 : κ)
    (h : ¬ k2 = k) : alFind? (alErase l k) k2 = alFind? l k2 := by
  induction l with
  | nil => rfl
  | cons q rest ih =>
    obtain ⟨k1, v1⟩ := q
    by_cases hk : k1 = k
    · subst hk
      have h' : ¬ k1 = k2 := fun he => h he.symm
      simp [alErase, alFind?, h']
    · by_cases hk2 : k1 = k2
      · subst hk2
        simp [alErase, hk, alFind?]
      · simp [alErase, hk, alFind?, hk2, ih]

theorem alUpsert_mem {κ α : Type} [DecidableEq κ] (l : List (κ × α)) (k : κ) (v : α)
    (q : κ × α) (h : q ∈ alUpsert l k v) : q ∈ l ∨ q = (k, v) := by
  induction l with
  | nil =>
    right
    simpa [alUpsert] using h
  | cons p rest ih =>
    obtain ⟨k1, v1⟩ := p
    by_cases hk : k1 = k
    · subst hk
      simp only [alUpsert, if_pos] at h
      rcases List.mem_cons.mp h with h1 | h2
      · right; exact h1
      · left; exact List.mem_cons_of_mem _ h2
    · simp only [alUpsert, hk, if_false] at h
      rcases List.mem_cons.mp h with h1 | h2
      · left
        rw [h1]
        exact List.mem_cons_self _ _
      · rcases ih h2 with h3 | h4
        · left; exact List.mem_cons_of_mem _ h3
        · right; exact h4

theorem alUpsert_keys_mem {κ α : Type} [DecidableEq κ] (l : List (κ × α)) (k : κ)
    (v : α) (x : κ) (h : x ∈ (alUpsert l k v).map Prod.fst) :
    x ∈ l.map Prod.fst ∨ x = k := by
  rcases List.mem_map.mp h with ⟨q, hq, hx⟩
  rcases alUpsert_mem l k v q hq with h1 | h2
  · left
    rw [← hx]
    exact List.mem_map_of_mem Prod.fst h1
  · right
    rw [← hx, h2]

theorem alUpsert_keys_nodup {κ α : Type} [DecidableEq κ] (l : List (κ × α)) (k : κ)
    (v : α) (h : (l.map Prod.fst).Nodup) :
    ((alUpsert l k v).map Prod.fst).Nodup := by
  induction l with
  | nil => simp [alUpsert]
  | cons p rest ih =>
    obtain ⟨k1, v1⟩ := p
    simp only [List.map_cons, List.nodup_cons] at h
    by_cases hk : k1 = k
    · subst hk
      simp only [alUpsert, if_pos, List.map_cons, List.nodup_cons]
      exact ⟨h.1, h.2⟩
    · simp only [alUpsert, hk, if_false, List.map_cons, List.nodup_cons]
      refine ⟨?_, ih h.2⟩
      intro hx
      rcases alUpsert_keys_mem rest k v k1 hx with h1 | h2
      · exact h.1 h1
      · exact hk h2

/-! ## Per-subscriber loop lemmas -/

theorem notifySubs_fst (msg : Msg) (subs : SubMap) :
    (notifySubs msg subs).1 = subs.map (fun q =>
      (q.1, if q.2.next_offset_needed ≤ msg.offset
        then { q.2 with next_offset_needed := msg.offset + 1 } else q.2)) := by
  induction subs with
  | nil => rfl
  | cons q rest ih =>
    obtain ⟨sid, info⟩ := q
    by_cases h : info.next_offset_needed ≤ msg.offset <;>
      simp [notifySubs, h, ih]

theorem notifySubs_tasks_filter_none (msg : Msg) (sid : String) (subs : SubMap)
    (h : ∀ q ∈ subs, ¬ (q.2.subscriber_id = sid)) :
    List.filter (fun task => task.subscriber_id = sid) (notifySubs msg subs).2 = [] := by
  induction subs with
  | nil => rfl
  | cons q rest ih =>
    obtain ⟨k1, info⟩ := q
    have hq : ¬ (info.subscriber_id = sid) := h (k1, info) (List.mem_cons_self _ _)
    have ih' := ih (fun r hr => h r (List.mem_cons_of_mem _ hr))
    by_cases hc : info.next_offset_needed ≤ msg.offset
    · simp only [notifySubs, if_pos hc]
      simp [hq, ih']
    · simp only [notifySubs, if_neg hc]
      exact ih'

theorem notifySubs_tasks_filter (msg : Msg) (subs : SubMap) (sid : String)
    (info : SubscriberInfo) (hnd : (subs.map Prod.fst).Nodup)
    (hid : ∀ q ∈ subs, q.2.subscriber_id = q.1)
    (hf : alFind? subs sid = some info) :
    List.filter (fun task => task.subscriber_id = sid) (notifySubs msg subs).2 =
      (if info.next_offset_needed ≤ msg.offset
       then [⟨info.client_executor, info.deliver_messages, msg.topic, [msg], sid⟩]
       else []) := by
  induction subs with
  | nil => simp [alFind?] at hf
  | cons q rest ih =>
    obtain ⟨k1, v1⟩ := q
    simp only [List.map_cons, List.nodup_cons] at hnd
    have hid1 : v1.subscriber_id = k1 := hid (k1, v1) (List.mem_cons_self _ _)
    have hidr : ∀ r ∈ rest, r.2.subscriber_id = r.1 :=
      fun r hr => hid r (List.mem_cons_of_mem _ hr)
    by_cases hk : k1 = sid
    · subst hk
      simp only [alFind?, if_pos] at hf
      injection hf with hf
      subst hf
      have hrest : ∀ r ∈ rest, ¬ (r.2.subscriber_id = k1) := by
        intro r hr he
        apply hnd.1
        have hr1 : r.1 = k1 := by rw [← hidr r hr, he]
        rw [← hr1]
        exact List.mem_map_of_mem Prod.fst hr
      have hnone := notifySubs_tasks_filter_none msg k1 rest hrest
      by_cases hc : v1.next_offset_needed ≤ msg.offset <;>
        simp [notifySubs, hc, hnone, hid1]
    · simp only [alFind?, hk, if_false] at hf
      have ih' := ih hnd.2 hidr hf
      by_cases hc : v1.next_offset_needed ≤ msg.offset
      · have hne : ¬ (v1.subscriber_id = sid) := by rw [hid1]; exact hk
        simp [notifySubs, hc, ih', hne]
      · simp [notifySubs, hc, ih']

/-! ## C7 — fan-out dispatch -/

/-- C7: on a notification, when the record's topic has no registered
subscribers the registry is unchanged and nothing is enqueued; when it
does, each subscriber with `next_offset_needed ≤ offset` gets exactly
one delivery task (a one-element batch on its own executor) and its
cursor is set to `offset + 1`, while each subscriber with
`next_offset_needed > offset` gets no task and keeps its entry. -/
theorem on_new_message_dispatch (reg : SubRegistry) (msg : Msg) :
    (alFind? reg msg.topic = none → on_new_message reg msg = (reg, [])) ∧
    (∀ subs sid info, alFind? reg msg.topic = some subs → SubsWF subs →
      alFind? subs sid = some info →
      ((info.next_offset_needed ≤ msg.offset →
        List.filter (fun task => task.subscriber_id = sid)
            (on_new_message reg msg).2 =
          [⟨info.client_executor, info.deliver_messages, msg.topic, [msg], sid⟩] ∧
        findSub? (on_new_message reg msg).1 msg.topic sid =
          some { info with next_offset_needed := msg.offset + 1 }) ∧
       (msg.offset < info.next_offset_needed →
        List.filter (fun task => task.subscriber_id = sid)
            (on_new_message reg msg).2 = [] ∧
        findSub? (on_new_message reg msg).1 msg.topic sid = some info))) := by
  constructor
  · intro h
    unfold on_new_message
    rw [h]
  · intro subs sid info hsubs hwf hinfo
    obtain ⟨hnd, hid⟩ := hwf
    have hsplit : on_new_message reg msg =
        (alUpsert reg msg.topic (notifySubs msg subs).1, (notifySubs msg subs).2) := by
      unfold on_new_message
      rw [hsubs]
    have hfind : findSub? (alUpsert reg msg.topic (notifySubs msg subs).1) msg.topic sid
        = alFind? (notifySubs msg subs).1 sid := by
      unfold findSub?
      rw [alFind?_alUpsert_self]
    have hmapped : alFind? (notifySubs msg subs).1 sid
        = Option.map (fun v => if v.next_offset_needed ≤ msg.offset
            then { v with next_offset_needed := msg.offset + 1 } else v)
            (alFind? subs sid) := by
      rw [notifySubs_fst]
      exact alFind?_map_value _ subs sid
    have hfilter := notifySubs_tasks_filter msg subs sid info hnd hid hinfo
    constructor
    · intro hle
      rw [hsplit]
      constructor
      · rw [if_pos hle] at hfilter
        exact hfilter
      · show findSub? (alUpsert reg msg.topic (notifySubs msg subs).1) msg.topic sid = _
        rw [hfind, hmapped, hinfo]
        simp [hle]
    · intro hgt
      have hnle : ¬ info.next_offset_needed ≤ msg.offset := by omega
      rw [hsplit]
      constructor
      · rw [if_neg hnle] at hfilter
        exact hfilter
      · show findSub? (alUpsert reg msg.topic (notifySubs msg subs).1) msg.topic sid = _
        rw [hfind, hmapped, hinfo]
        simp [hnle]

/-- Witness for C7: one subscriber at cursor 3 receiving the record at
offset 5. -/
theorem on_new_message_dispatch_witness :
    List.filter (fun task => task.subscriber_id = "s")
        (on_new_message [("t", [("s", ⟨"s", 3, 9, 7⟩)])] ⟨5, "t", [1]⟩).2 =
      [⟨7, 9, "t", [⟨5, "t", [1]⟩], "s"⟩] :=
  (((on_new_message_dispatch [("t", [("s", ⟨"s", 3, 9, 7⟩)])] ⟨5, "t", [1]⟩).2
      [("s", ⟨"s", 3, 9, 7⟩)] "s" ⟨"s", 3, 9, 7⟩ rfl
      ⟨by simp, by simp⟩ rfl).1 (by decide)).1

/-! ## C8 — registry invariants -/

theorem unsubscribe_all_keys_mem (reg : SubRegistry) (s x : String)
    (h : x ∈ (unsubscribe_all reg s).map Prod.fst) : x ∈ reg.map Prod.fst := by
  unfold unsubscribe_all at h
  rcases List.mem_map.mp h with ⟨q, hq, hx⟩
  rcases List.mem_map.mp (List.mem_filter.mp hq).1 with ⟨r, hr, he⟩
  rw [← hx, ← he]
  simpa using List.mem_map_of_mem Prod.fst hr

theorem alFind?_unsubscribe_all (reg : SubRegistry) (s t2 : String)
    (hnd : (reg.map Prod.fst).Nodup) :
    alFind? (unsubscribe_all reg s) t2 =
      (match alFind? reg t2 with
       | none => none
       | some subs => if alErase subs s = [] then none else some (alErase subs s)) := by
  induction reg with
  | nil => rfl
  | cons q rest ih =>
    obtain ⟨k1, subs1⟩ := q
    simp only [List.map_cons, List.nodup_cons] at hnd
    have ih' := ih hnd.2
    by_cases hk : k1 = t2
    · subst hk
      by_cases he : alErase subs1 s = []
      · have hnone : alFind? (unsubscribe_all rest s) k1 = none :=
          alFind?_none_of_not_mem _ _
            (fun hx => hnd.1 (unsubscribe_all_keys_mem rest s k1 hx))
        simp [unsubscribe_all, he, alFind?, hnone, unsubscribe_all] at hnone ⊢
        exact hnone
      · simp [unsubscribe_all, he, alFind?]
    · by_cases he : alErase subs1 s = [] <;>
        simp [unsubscribe_all, he, alFind?, hk, ih', unsubscribe_all] at ih' ⊢ <;>
        exact ih'

theorem unsubscribe_mono (reg : SubRegistry) (t s t2 s2 : String)
    (info info' : SubscriberInfo) (hwf : RegWF reg)
    (hb : findSub? reg t2 s2 = some info)
    (ha : findSub? (unsubscribe reg t s).1 t2 s2 = some info') :
    info.next_offset_needed ≤ info'.next_offset_needed := by
  have heq : info' = info := by
    unfold unsubscribe at ha
    rcases hf : alFind? reg t with _ | subs
    · simp only [hf] at ha
      rw [hb] at ha
      injection ha with ha
      exact ha.symm
    · simp only [hf] at ha
      by_cases hs : (alFind? subs s).isSome = true
      · rw [if_pos hs] at ha
        have hsw : SubsWF subs := hwf.2 (t, subs) (alFind?_mem _ _ _ hf)
        by_cases he : alErase subs s = []
        · rw [if_pos he] at ha
          by_cases ht2 : t2 = t
          · subst ht2
            unfold findSub? at ha
            rw [alFind?_alErase_self reg t2 hwf.1] at ha
            simp at ha
          · unfold findSub? at ha hb
            rw [alFind?_alErase_ne reg t t2 ht2] at ha
            rw [hb] at ha
            injection ha with ha
            exact ha.symm
        · rw [if_neg he] at ha
          by_cases ht2 : t2 = t
          · subst ht2
            unfold findSub? at ha hb
            simp only [alFind?_alUpsert_self] at ha
            simp only [hf] at hb
            by_cases hs2 : s2 = s
            · subst hs2
              rw [alFind?_alErase_self subs s2 hsw.1] at ha
              simp at ha
            · rw [alFind?_alErase_ne subs s s2 hs2] at ha
              rw [hb] at ha
              injection ha with ha
              exact ha.symm
          · unfold findSub? at ha hb
            rw [alFind?_alUpsert_ne reg t t2 _ ht2] at ha
            rw [hb] at ha
            injection ha with ha
            exact ha.symm
      · rw [if_neg hs] at ha
        rw [hb] at ha
        injection ha with ha
        exact ha.symm
  rw [heq]

theorem unsubscribe_all_mono (reg : SubRegistry) (s t2 s2 : String)
    (info info' : SubscriberInfo) (hwf : RegWF reg)
    (hb : findSub? reg t2 s2 = some info)
    (ha : findSub? (unsubscribe_all reg s) t2 s2 = some info') :
    info.next_offset_needed ≤ info'.next_offset_needed := by
  have heq : info' = info := by
    unfold findSub? at ha hb
    rw [alFind?_unsubscribe_all reg s t2 hwf.1] at ha
    rcases hf : alFind? reg t2 with _ | subs
    · simp only [hf] at hb
      exact Option.noConfusion hb
    · simp only [hf] at ha hb
      have hsw : SubsWF subs := hwf.2 (t2, subs) (alFind?_mem _ _ _ hf)
      by_cases he : alErase subs s = []
      · rw [if_pos he] at ha
        simp at ha
      · simp only [if_neg he] at ha
        by_cases hs2 : s2 = s
        · subst hs2
          rw [alFind?_alErase_self subs s2 hsw.1] at ha
          simp at ha
        · rw [alFind?_alErase_ne subs s s2 hs2] at ha
          rw [hb] at ha
          injection ha with ha
          exact ha.symm
  rw [heq]

theorem on_new_message_mono (reg : SubRegistry) (msg : Msg) (t2 s2 : String)
    (info info' : SubscriberInfo)
    (hb : findSub? reg t2 s2 = some info)
    (ha : findSub? (on_new_message reg msg).1 t2 s2 = some info') :
    info.next_offset_needed ≤ info'.next_offset_needed := by
  unfold on_new_message at ha
  rcases hf : alFind? reg msg.topic with _ | subs
  · simp only [hf] at ha
    rw [hb] at ha
    injection ha with ha
    rw [ha]
  · simp only [hf] at ha
    by_cases ht2 : t2 = msg.topic
    · subst ht2
      unfold findSub? at ha hb
      simp only [hf] at hb
      have hmapped : alFind? (notifySubs msg subs).1 s2
          = Option.map (fun v => if v.next_offset_needed ≤ msg.offset
              then { v with next_offset_needed := msg.offset + 1 } else v)
              (alFind? subs s2) := by
        rw [notifySubs_fst]
        exact alFind?_map_value _ subs s2
      simp only [alFind?_alUpsert_self] at ha
      rw [hmapped, hb] at ha
      simp only [Option.map_some'] at ha
      by_cases hc : info.next_offset_needed ≤ msg.offset
      · rw [if_pos hc] at ha
        injection ha with ha
        rw [← ha]
        simp
        omega
      · rw [if_neg hc] at ha
        injection ha with ha
        rw [ha]
    · unfold findSub? at ha hb
      rw [alFind?_alUpsert_ne reg msg.topic t2 _ ht2] at ha
      rw [hb] at ha
      injection ha with ha
      rw [ha]

theorem subscribe_wf (reg : SubRegistry) (t s : String) (so ex cb : Nat)
    (h : RegWF reg) : RegWF (subscribe reg t s so ex cb) := by
  obtain ⟨hnd, hwf⟩ := h
  constructor
  · exact alUpsert_keys_nodup _ _ _ hnd
  · intro q hq
    rcases alUpsert_mem _ _ _ q hq with h1 | h2
    · exact hwf q h1
    · have hsubs : SubsWF ((alFind? reg t).getD []) := by
        rcases hf : alFind? reg t with _ | subs
        · exact ⟨List.nodup_nil, by simp⟩
        · simpa using hwf (t, subs) (alFind?_mem _ _ _ hf)
      rw [h2]
      constructor
      · exact alUpsert_keys_nodup _ _ _ hsubs.1
      · intro r hr
        rcases alUpsert_mem _ _ _ r hr with h3 | h4
        · exact hsubs.2 r h3
        · rw [h4]

theorem unsubscribe_wf (reg : SubRegistry) (t s : String) (h : RegWF reg) :
    RegWF (unsubscribe reg t s).1 := by
  obtain ⟨hnd, hwf⟩ := h
  unfold unsubscribe
  split
  · exact ⟨hnd, hwf⟩
  · next subs hf =>
    have hsw : SubsWF subs := hwf (t, subs) (alFind?_mem _ _ _ hf)
    split_ifs with hs he
    · constructor
      · exact alErase_keys_nodup _ _ hnd
      · intro q hq
        exact hwf q (alErase_mem _ _ _ hq)
    · constructor
      · exact alUpsert_keys_nodup _ _ _ hnd
      · intro q hq
        rcases alUpsert_mem _ _ _ q hq with h1 | h2
        · exact hwf q h1
        · rw [h2]
          refine ⟨alErase_keys_nodup _ _ hsw.1, ?_⟩
          intro r hr
          exact hsw.2 r (alErase_mem _ _ _ hr)
    · exact ⟨hnd, hwf⟩

theorem unsubscribe_all_wf (reg : SubRegistry) (s : String) (h : RegWF reg) :
    RegWF (unsubscribe_all reg s) := by
  obtain ⟨hnd, hwf⟩ := h
  constructor
  · have h1 := (List.filter_sublist
      (l := reg.map (fun p => (p.1, alErase p.2 s)))
      (p := fun p => decide (¬ (p.2 = [])))).map Prod.fst
    have h2 : ((reg.map (fun p => (p.1, alErase p.2 s))).map Prod.fst)
        = reg.map Prod.fst := map_value_keys _ reg
    rw [h2] at h1
    exact List.Nodup.sublist h1 hnd
  · intro q hq
    unfold unsubscribe_all at hq
    rcases List.mem_map.mp (List.mem_filter.mp hq).1 with ⟨r, hr, he⟩
    have hwr := hwf r hr
    rw [← he]
    exact ⟨alErase_keys_nodup _ _ hwr.1,
      fun x hx => hwr.2 x (alErase_mem _ _ _ hx)⟩

theorem on_new_message_wf (reg : SubRegistry) (msg : Msg) (h : RegWF reg) :
    RegWF (on_new_message reg msg).1 := by
  obtain ⟨hnd, hwf⟩ := h
  unfold on_new_message
  rcases hf : alFind? reg msg.topic with _ | subs
  · exact ⟨hnd, hwf⟩
  · have hsw : SubsWF subs := hwf (msg.topic, subs) (alFind?_mem _ _ _ hf)
    constructor
    · exact alUpsert_keys_nodup _ _ _ hnd
    · intro q hq
      rcases alUpsert_mem _ _ _ q hq with h1 | h2
      · exact hwf q h1
      · rw [h2]
        constructor
        · rw [notifySubs_fst, map_value_keys]
          exact hsw.1
        · intro r hr
          rw [notifySubs_fst] at hr
          rcases List.mem_map.mp hr with ⟨r0, hr0, he⟩
          have hfield := hsw.2 r0 hr0
          rw [← he]
          by_cases hc : r0.2.next_offset_needed ≤ msg.offset <;>
            simp [hc, hfield]

/-- C8 counterexample: re-subscribing the same (topic, subscriber) with
a smaller start offset moves `next_offset_needed` backwards — the entry
exists before and after the subscribe, and its cursor drops from 5 to 2. -/
theorem cursor_monotonicity_counterexample :
    findSub? (subscribe [] "t" "s" 5 0 0) "t" "s" = some ⟨"s", 5, 0, 0⟩ ∧
    findSub? (subscribe (subscribe [] "t" "s" 5 0 0) "t" "s" 2 0 0) "t" "s" =
      some ⟨"s", 2, 0, 0⟩ := by
  constructor <;> rfl

/-- C8 amended: `next_offset_needed` of an entry that survives
`unsubscribe`, `unsubscribe_all` or `on_new_record` never decreases
(`subscribe` replaces the entry and may set any cursor, including a
smaller one); all four operations preserve the invariant that each
subscriber id appears in at most one entry per topic. -/
theorem registry_invariants_amended :
    (∀ reg t s t2 s2 info info', RegWF reg →
      findSub? reg t2 s2 = some info →
      findSub? (unsubscribe reg t s).1 t2 s2 = some info' →
      info.next_offset_needed ≤ info'.next_offset_needed) ∧
    (∀ reg s t2 s2 info info', RegWF reg →
      findSub? reg t2 s2 = some info →
      findSub? (unsubscribe_all reg s) t2 s2 = some info' →
      info.next_offset_needed ≤ info'.next_offset_needed) ∧
    (∀ reg msg t2 s2 info info', RegWF reg →
      findSub? reg t2 s2 = some info →
      findSub? (on_new_message reg msg).1 t2 s2 = some info' →
      info.next_offset_needed ≤ info'.next_offset_needed) ∧
    (∀ reg t s so ex cb, RegWF reg → RegWF (subscribe reg t s so ex cb)) ∧
    (∀ reg t s, RegWF reg → RegWF (unsubscribe reg t s).1) ∧
    (∀ reg s, RegWF reg → RegWF (unsubscribe_all reg s)) ∧
    (∀ reg msg, RegWF reg → RegWF (on_new_message reg msg).1) :=
  ⟨fun reg t s t2 s2 info info' hwf => unsubscribe_mono reg t s t2 s2 info info' hwf,
   fun reg s t2 s2 info info' hwf => unsubscribe_all_mono reg s t2 s2 info info' hwf,
   fun reg msg t2 s2 info info' _ => on_new_message_mono reg msg t2 s2 info info',
   subscribe_wf, unsubscribe_wf, unsubscribe_all_wf, on_new_message_wf⟩

/-- Witness for the amended C8: the registry after one subscribe on the
empty registry is well-formed. -/
theorem registry_invariants_amended_witness :
    RegWF (subscribe [] "t" "s" 0 0 0) :=
  registry_invariants_amended.2.2.2.1 [] "t" "s" 0 0 0
    ⟨List.nodup_nil, by simp⟩

end Aiq
